import Mathlib

/-!
Verification of the MdToImage plugin (src/main.py).

The plugin intercepts an outgoing AI text reply, finds Markdown image
references of the form matched by the Python regex

    !\[([^\]]*)\]\(([^)]+)\)

splits the reply into plain-text and image segments, normalizes each image
URL against an optional base_url, and either rewrites the reply into a list
of message parts or leaves it untouched.

Strings are modelled through their character lists.  Python regex scanning
(re.finditer with the pattern above) is modelled by a leftmost, non-
overlapping scanner: the pattern has no backtracking ambiguity because the
two character classes exclude exactly the delimiters that follow them, so a
match attempt at a given position is deterministic (matchImageAt below), and
finditer takes the leftmost match and resumes after its end (scan below).
-/

namespace MdToImage

abbrev Chars := List Char

/-- Python str.strip with no arguments removes whitespace; we model the
ASCII whitespace characters (space, tab, newline, carriage return, vertical
tab, form feed), which covers the URL and text material this plugin sees. -/
def pyIsSpace (c : Char) : Bool :=
  c == ' ' || c == '\t' || c == '\n' || c == '\r' || c == '\x0b' || c == '\x0c'

/-- Truthiness of s.strip(): the string has some non-whitespace character. -/
def hasNonWs (cs : Chars) : Bool :=
  cs.any (fun c => !(pyIsSpace c))

/-- Python s.strip(): drop whitespace from both ends. -/
def pyStripL (cs : Chars) : Chars :=
  ((cs.dropWhile pyIsSpace).reverse.dropWhile pyIsSpace).reverse

/-- Python s.rstrip("/"): drop trailing slash characters. -/
def rstripSlashL (cs : Chars) : Chars :=
  (cs.reverse.dropWhile (fun c => c == '/')).reverse

/-- Python s.lower(), restricted to the ASCII case mapping. -/
def lowerL (cs : Chars) : Chars :=
  cs.map Char.toLower

/-- Python s.startswith(p). -/
def startsWithL (p cs : Chars) : Bool :=
  List.isPrefixOf p cs

/-- The absolute-or-data-URI test used both by normalize_image_url and by
the handler (src/main.py lines 78 and 149): the lowercased string starts
with http://, https:// or data:. -/
def isAbsOrData (cs : Chars) : Bool :=
  startsWithL ['h', 't', 't', 'p', ':', '/', '/'] (lowerL cs) ||
  startsWithL ['h', 't', 't', 'p', 's', ':', '/', '/'] (lowerL cs) ||
  startsWithL ['d', 'a', 't', 'a', ':'] (lowerL cs)

/-- normalize_image_url (src/main.py lines 60-86), on character lists.
The try/except wrapper of the Python code cannot fire on string input, so
the body is modelled directly. -/
def normalizeL (base url : Chars) : Chars :=
  if url.isEmpty then url
  else if isAbsOrData url then url
  else if startsWithL ['/'] url then rstripSlashL base ++ url
  else url

/-- normalize_image_url on strings; base is self.base_url. -/
def normalize_image_url (base_url url : String) : String :=
  ⟨normalizeL base_url.data url.data⟩

/-- One attempted match of the regex at the head of the list.
Returns (alt capture, url capture, remainder after the match).  The regex is
literal `!`, `[`, a greedy run of non-`]` (the alt capture, possibly empty),
`]`, `(`, a greedy run of non-`)` (the url capture, at least one character),
`)`.  Greediness is deterministic here: each class excludes the delimiter
that must follow it, so no shorter run can ever satisfy the pattern. -/
def matchImageAt : Chars → Option (Chars × Chars × Chars)
  | c1 :: c2 :: rest =>
    if c1 == '!' && c2 == '[' then
      match rest.dropWhile (fun c => !(c == ']')) with
      | d1 :: d2 :: rest2 =>
        if d1 == ']' && d2 == '(' then
          if (rest2.takeWhile (fun c => !(c == ')'))).isEmpty then none
          else
            match rest2.dropWhile (fun c => !(c == ')')) with
            | e1 :: rest3 =>
              if e1 == ')' then
                some (rest.takeWhile (fun c => !(c == ']')),
                      rest2.takeWhile (fun c => !(c == ')')), rest3)
              else none
            | [] => none
        else none
      | _ => none
    else none
  | _ => none

/-- A piece of the scanned input: an unmatched character, or one image
match with its two raw captures. -/
inductive Piece where
  | chr (c : Char)
  | img (alt url : Chars)
deriving DecidableEq, Repr

/-- The literal input text a piece stands for: the character itself, or the
full matched text of the image reference. -/
def pieceText : Piece → Chars
  | .chr c => [c]
  | .img alt url => '!' :: '[' :: (alt ++ ']' :: '(' :: (url ++ [')']))

def piecesText : List Piece → Chars
  | [] => []
  | p :: ps => pieceText p ++ piecesText ps

/-- Fuelled scanner; fuel bounds the number of positions still to try. -/
def scanFuel : Nat → Chars → List Piece
  | 0, _ => []
  | _ + 1, [] => []
  | fuel + 1, c :: rest =>
    match matchImageAt (c :: rest) with
    | some (alt, url, rest2) => Piece.img alt url :: scanFuel fuel rest2
    | none => Piece.chr c :: scanFuel fuel rest

/-- re.finditer over the whole input: leftmost matches, non-overlapping,
scanning resumes after each match end. -/
def scan (cs : Chars) : List Piece := scanFuel cs.length cs

/-- A parsed segment (the dicts built by parse_markdown_content):
{"type": "text", "content": c} or {"type": "image", "alt": a, "url": u}. -/
inductive Seg where
  | text (content : String)
  | image (alt url : String)
deriving DecidableEq, Repr

/-- The finditer loop of parse_markdown_content (src/main.py lines 103-126)
over the scanned pieces.  gap accumulates the unmatched characters since the
previous match end (text[last_end:match.start()]); a text segment is emitted
only when the gap strips to something non-empty, carrying the raw gap; each
match yields an image segment whose url went through normalize_image_url. -/
def emitLoop (base : Chars) (gap : Chars) : List Piece → List Seg
  | [] => if hasNonWs gap then [Seg.text ⟨gap⟩] else []
  | .chr c :: ps => emitLoop base (gap ++ [c]) ps
  | .img a u :: ps =>
      (if hasNonWs gap then [Seg.text ⟨gap⟩] else []) ++
        Seg.image ⟨a⟩ ⟨normalizeL base u⟩ :: emitLoop base [] ps

/-- parse_markdown_content (src/main.py lines 88-126). -/
def parse_markdown_content (self_base_url text : String) : List Seg :=
  emitLoop self_base_url.data [] (scan text.data)

/-- An outbound message component: Plain(content) or Image(url=...). -/
inductive Part where
  | Plain (content : String)
  | Image (url : String)
deriving DecidableEq, Repr

/-- Segment to component conversion (src/main.py lines 157-162); the alt
text is dropped. -/
def segToPart : Seg → Part
  | .text c => .Plain c
  | .image _ u => .Image u

/-- The raw url captures of all matches, in order. -/
def imgUrls (ps : List Piece) : List Chars :=
  ps.filterMap (fun p =>
    match p with
    | .img _ u => some u
    | .chr _ => none)

/-- urls = [m.group(2).strip() for m in re.finditer(img_pattern, resp_text)]
(src/main.py line 148). -/
def strippedUrls (cs : Chars) : List Chars :=
  (imgUrls (scan cs)).map pyStripL

/-- has_relative (src/main.py line 149): some stripped url does not start,
case-insensitively, with http://, https:// or data:. -/
def hasRelativeUrl (cs : Chars) : Bool :=
  (strippedUrls cs).any (fun u => !(isAbsOrData u))

/-- normal_message_responded (src/main.py lines 128-171) as a function from
self.base_url and ctx.event.response_text to the optional reply it sets.
none models the handler returning with ctx.event.reply untouched; the
outer try/except cannot fire because every operation in the body is total
on string input. -/
def normal_message_responded (self_base_url response_text : String) :
    Option (List Part) :=
  if (imgUrls (scan response_text.data)).isEmpty then none
  else if hasRelativeUrl response_text.data && (self_base_url == "") then none
  else if ((parse_markdown_content self_base_url response_text).map segToPart).isEmpty
    then none
  else some ((parse_markdown_content self_base_url response_text).map segToPart)

/-- The event as the handler sees it: the response text and the mutable
reply slot. -/
structure EventState where
  response_text : String
  reply : Option (List Part)
deriving DecidableEq, Repr

/-- One invocation of the handler on the event: sets the reply slot when
the handler produces components, otherwise leaves the event unchanged. -/
def runHandler (b : String) (s : EventState) : EventState :=
  match normal_message_responded b s.response_text with
  | some parts => { s with reply := some parts }
  | none => s

/-- The possible outcomes of reading config.json, abstracting the file
system and JSON effects of _load_base_url_from_config: the file is missing,
open or read raised, json.load raised, the base_url field is absent or a
falsy value, or it holds the string s. -/
inductive ConfigRead where
  | missing
  | unreadable
  | unparsable
  | fieldAbsent
  | value (s : String)

/-- _load_base_url_from_config (src/main.py lines 31-52) over an abstract
read outcome.  Every failure path returns the empty string; a present value
is whitespace-stripped, and then trailing-slash-stripped when non-empty. -/
def _load_base_url_from_config : ConfigRead → String
  | .missing => ""
  | .unreadable => ""
  | .unparsable => ""
  | .fieldAbsent => ""
  | .value s =>
      if (pyStripL s.data).isEmpty then ""
      else ⟨rstripSlashL (pyStripL s.data)⟩

/-! ## Spec-side description of the parse output (for the losslessness
invariant)

The spec describes the parse result as an alternation: unmatched gaps and
image matches in original left-to-right order, where each gap is emitted
whole as a text segment carrying its raw content when it has some
non-whitespace character and is omitted whole otherwise, and concatenating
the raw gaps with the literal matched texts reconstructs the input.  The
following definitions are written from those words, to be compared with the
source-side parse_markdown_content. -/

/-- The literal matched text of one image reference, the original
![alt](url) as it occurs in the input. -/
def matchLit (alt url : Chars) : Chars :=
  '!' :: '[' :: (alt ++ ']' :: '(' :: (url ++ [')']))

/-- What the spec prescribes for one unmatched gap: the raw gap as one text
segment when it has some non-whitespace character, nothing otherwise. -/
def optText (g : Chars) : List Seg :=
  if hasNonWs g then [Seg.text ⟨g⟩] else []

/-- Renders an alternation (each entry one gap followed by one image match,
then a final trailing gap) back to the input text it came from. -/
def altsText : List (Chars × Chars × Chars) → Chars → Chars
  | [], tail => tail
  | (g, a, u) :: xs, tail => g ++ (matchLit a u ++ altsText xs tail)

/-- The segment sequence the spec prescribes for an alternation: for each
entry the gap's optional text segment then the image segment with the
normalized url, in order, then the trailing gap's optional text segment. -/
def altsSegs (base : Chars) : List (Chars × Chars × Chars) → Chars → List Seg
  | [], tail => optText tail
  | (g, a, u) :: xs, tail =>
      optText g ++ Seg.image ⟨a⟩ ⟨normalizeL base u⟩ :: altsSegs base xs tail

/-! ## Structural lemmas about the scanner -/

/-- A successful match attempt consumed exactly the literal matched text:
the input splits as the matched text followed by the remainder, the
remainder is strictly shorter, the alt capture has no `]`, and the url
capture is non-empty with no `)`. -/
theorem matchImageAt_eq_some {cs a u rest : Chars}
    (h : matchImageAt cs = some (a, u, rest)) :
    cs = pieceText (.img a u) ++ rest ∧ rest.length < cs.length
    ∧ (∀ c ∈ a, (c == ']') = false)
    ∧ (∀ c ∈ u, (c == ')') = false)
    ∧ u ≠ [] := by
  cases cs with
  | nil => exact absurd h (by simp [matchImageAt])
  | cons c1 t =>
    cases t with
    | nil => exact absurd h (by simp [matchImageAt])
    | cons c2 r =>
      simp only [matchImageAt] at h
      split at h
      · next hcc =>
        obtain ⟨hc1, hc2⟩ := by simpa using hcc
        split at h
        · next d1 d2 rest2 hd =>
          split at h
          · next hdd =>
            obtain ⟨hd1, hd2⟩ := by simpa using hdd
            split at h
            · exact absurd h (by simp)
            · next hur =>
              split at h
              · next e1 rest3 he =>
                split at h
                · next he1 =>
                  obtain ⟨ha, hu, hr⟩ :
                      r.takeWhile (fun c => !(c == ']')) = a ∧
                      rest2.takeWhile (fun c => !(c == ')')) = u ∧
                      rest3 = rest := by simpa using h
                  subst hc1 hc2 hd1 hd2
                  have he1' : e1 = ')' := by simpa using he1
                  subst he1'
                  have hsplit : r = a ++ (']' :: '(' :: rest2) := by
                    rw [← ha, ← hd]
                    exact (List.takeWhile_append_dropWhile _ r).symm
                  have hsplit2 : rest2 = u ++ (')' :: rest) := by
                    rw [← hu, ← hr, ← he]
                    exact (List.takeWhile_append_dropWhile _ rest2).symm
                  have heq :
                      '!' :: '[' :: r = pieceText (.img a u) ++ rest := by
                    rw [hsplit, hsplit2]
                    simp [pieceText]
                  refine ⟨heq, ?_, ?_, ?_, ?_⟩
                  · rw [heq]
                    simp only [pieceText, List.length_append, List.length_cons]
                    omega
                  · intro c hc
                    rw [← ha] at hc
                    simpa using List.mem_takeWhile_imp hc
                  · intro c hc
                    rw [← hu] at hc
                    simpa using List.mem_takeWhile_imp hc
                  · rw [hu, List.isEmpty_iff] at hur
                    exact hur
                · exact absurd h (by simp)
              · exact absurd h (by simp)
          · exact absurd h (by simp)
        · exact absurd h (by simp)
      · exact absurd h (by simp)

/-- With enough fuel, the scanned pieces spell out the input exactly. -/
theorem scanFuel_text (fuel : Nat) :
    ∀ cs : Chars, cs.length ≤ fuel → piecesText (scanFuel fuel cs) = cs := by
  induction fuel with
  | zero =>
    intro cs hle
    have : cs = [] := List.eq_nil_of_length_eq_zero (Nat.le_zero.mp hle)
    subst this
    rfl
  | succ fuel ih =>
    intro cs hle
    cases cs with
    | nil => rfl
    | cons c rest =>
      cases hm : matchImageAt (c :: rest) with
      | some v =>
        obtain ⟨a, u, rest2⟩ := v
        obtain ⟨heq, hlt⟩ := matchImageAt_eq_some hm
        have hle2 : rest2.length ≤ fuel := by
          have := hle
          simp only [List.length_cons] at this
          omega
        simp only [scanFuel, hm, piecesText, ih rest2 hle2]
        exact heq.symm
      | none =>
        have hle2 : rest.length ≤ fuel := by
          simp only [List.length_cons] at hle
          omega
        simp [scanFuel, hm, piecesText, pieceText, ih rest hle2]

/-- The pieces returned by scan spell out the input exactly. -/
theorem scan_text (cs : Chars) : piecesText (scan cs) = cs :=
  scanFuel_text cs.length cs (Nat.le_refl _)

/-! ## Lemmas about the segment-emitting loop -/

theorem imgUrls_cons_chr (c : Char) (ps : List Piece) :
    imgUrls (Piece.chr c :: ps) = imgUrls ps := by
  simp [imgUrls]

theorem imgUrls_cons_img (a u : Chars) (ps : List Piece) :
    imgUrls (Piece.img a u :: ps) = u :: imgUrls ps := by
  simp [imgUrls]

/-- If some piece is an image match, the loop emits at least one segment. -/
theorem emitLoop_ne_nil (base : Chars) :
    ∀ (ps : List Piece) (gap : Chars), imgUrls ps ≠ [] →
      emitLoop base gap ps ≠ [] := by
  intro ps
  induction ps with
  | nil => intro gap h; exact absurd rfl h
  | cons p ps ih =>
    intro gap h
    cases p with
    | chr c =>
      rw [imgUrls_cons_chr] at h
      simpa only [emitLoop] using ih (gap ++ [c]) h
    | img a u =>
      simp only [emitLoop]
      intro hc
      rcases List.append_eq_nil.mp hc with ⟨-, h2⟩
      exact List.cons_ne_nil _ _ h2

/-- If no piece is an image match, the loop just flushes the accumulated
text: one text segment when it strips non-empty, nothing otherwise. -/
theorem emitLoop_no_img (base : Chars) :
    ∀ (ps : List Piece) (gap : Chars), imgUrls ps = [] →
      emitLoop base gap ps =
        (if hasNonWs (gap ++ piecesText ps)
         then [Seg.text ⟨gap ++ piecesText ps⟩] else []) := by
  intro ps
  induction ps with
  | nil => intro gap h; simp [emitLoop, piecesText]
  | cons p ps ih =>
    intro gap h
    cases p with
    | chr c =>
      rw [imgUrls_cons_chr] at h
      simp only [emitLoop, ih (gap ++ [c]) h, piecesText, pieceText]
      simp
    | img a u =>
      rw [imgUrls_cons_img] at h
      exact absurd h (List.cons_ne_nil _ _)

/-- Every text segment the loop emits has some non-whitespace character. -/
theorem emitLoop_text_nonWs (base : Chars) :
    ∀ (ps : List Piece) (gap : Chars) (c : String),
      Seg.text c ∈ emitLoop base gap ps → hasNonWs c.data = true := by
  intro ps
  induction ps with
  | nil =>
    intro gap c hc
    simp only [emitLoop] at hc
    split at hc
    · next hg =>
      rcases List.mem_singleton.mp hc with h
      cases h
      exact hg
    · exact absurd hc (List.not_mem_nil _)
  | cons p ps ih =>
    intro gap c hc
    cases p with
    | chr ch =>
      exact ih (gap ++ [ch]) c (by simpa only [emitLoop] using hc)
    | img a u =>
      simp only [emitLoop, List.mem_append, List.mem_cons] at hc
      rcases hc with hc | hc | hc
      · split at hc
        · next hg =>
          rcases List.mem_singleton.mp hc with h
          cases h
          exact hg
        · exact absurd hc (List.not_mem_nil _)
      · exact absurd hc (by simp)
      · exact ih [] c hc

/-- A candidate prefix whose head disagrees is not a prefix. -/
theorem isPrefixOf_cons_false {p c : Char} {ps l : Chars}
    (h : (p == c) = false) :
    List.isPrefixOf (p :: ps) (c :: l) = false := by
  simp [List.isPrefixOf, h]

/-- A string starting with a slash is neither absolute nor a data URI. -/
theorem isAbsOrData_slash_cons (cs : Chars) :
    isAbsOrData ('/' :: cs) = false := by
  simp only [isAbsOrData, startsWithL, lowerL, List.map_cons]
  rw [show Char.toLower '/' = '/' from by decide]
  rw [isPrefixOf_cons_false (by decide), isPrefixOf_cons_false (by decide),
    isPrefixOf_cons_false (by decide)]
  rfl

/-- takeWhile passes over a block whose elements all satisfy the predicate. -/
theorem takeWhile_all_app {p : Char → Bool} :
    ∀ (a l : Chars), (∀ c ∈ a, p c = true) →
      (a ++ l).takeWhile p = a ++ l.takeWhile p := by
  intro a
  induction a with
  | nil => intro l _; simp
  | cons x xs ih =>
    intro l h
    have hx : p x = true := h x (List.mem_cons_self x xs)
    simp [List.takeWhile_cons, hx,
      ih l (fun c hc => h c (List.mem_cons_of_mem x hc))]

/-- dropWhile passes over a block whose elements all satisfy the predicate. -/
theorem dropWhile_all_app {p : Char → Bool} :
    ∀ (a l : Chars), (∀ c ∈ a, p c = true) →
      (a ++ l).dropWhile p = l.dropWhile p := by
  intro a
  induction a with
  | nil => intro l _; simp
  | cons x xs ih =>
    intro l h
    have hx : p x = true := h x (List.mem_cons_self x xs)
    simp [List.dropWhile_cons, hx,
      ih l (fun c hc => h c (List.mem_cons_of_mem x hc))]

/-- The loop output always fits the spec's alternation shape: some list of
(gap, alt, url) entries and a trailing gap render to the pending gap plus
the remaining input, and to the emitted segments. -/
theorem emitLoop_alternation (b : Chars) :
    ∀ (ps : List Piece) (gap : Chars),
      ∃ (xs : List (Chars × Chars × Chars)) (tail : Chars),
        gap ++ piecesText ps = altsText xs tail
        ∧ emitLoop b gap ps = altsSegs b xs tail := by
  intro ps
  induction ps with
  | nil =>
    intro gap
    exact ⟨[], gap, by simp [piecesText, altsText], rfl⟩
  | cons p ps ih =>
    intro gap
    cases p with
    | chr c =>
      obtain ⟨xs, tail, h1, h2⟩ := ih (gap ++ [c])
      refine ⟨xs, tail, ?_, ?_⟩
      · rw [← h1]
        simp [piecesText, pieceText]
      · simpa [emitLoop] using h2
    | img a u =>
      obtain ⟨xs, tail, h1, h2⟩ := ih []
      refine ⟨(gap, a, u) :: xs, tail, ?_, ?_⟩
      · show gap ++ piecesText (Piece.img a u :: ps) =
          gap ++ (matchLit a u ++ altsText xs tail)
        rw [← h1]
        simp [piecesText, pieceText, matchLit]
      · show emitLoop b gap (Piece.img a u :: ps) =
          optText gap ++ Seg.image ⟨a⟩ ⟨normalizeL b u⟩ :: altsSegs b xs tail
        rw [← h2]
        rfl

/-! ## Claims -/

/-- C2: for every base_url and every input, parse's output is an
alternation matching the input: the input splits into unmatched gaps and
literal ![alt](url) match texts in left-to-right order (altsText, the
lossless reconstruction), and the emitted segments are exactly, in that
order, each gap kept whole and raw as a text segment when it has some
non-whitespace character and omitted whole otherwise, and each match as an
image segment with the original alt and the normalized url (altsSegs).  On
the concrete input 见图![猫](https://a.com/1.png)很可爱 the parse yields the
text segment 见图, then the image segment with alt 猫 and url
https://a.com/1.png, then the text segment 很可爱. -/
theorem c2_parse_lossless_ordered (b t : String) :
    (∃ (xs : List (Chars × Chars × Chars)) (tail : Chars),
      t.data = altsText xs tail
      ∧ parse_markdown_content b t = altsSegs b.data xs tail)
    ∧ parse_markdown_content "" "见图![猫](https://a.com/1.png)很可爱" =
        [Seg.text "见图", Seg.image "猫" "https://a.com/1.png",
         Seg.text "很可爱"] := by
  refine ⟨?_, by decide⟩
  obtain ⟨xs, tail, h1, h2⟩ := emitLoop_alternation b.data (scan t.data) []
  refine ⟨xs, tail, ?_, h2⟩
  rw [← h1, List.nil_append, scan_text]

/-- C5: for every url that starts with a slash and every non-empty
base_url, normalize_image_url returns base_url with trailing slashes
stripped concatenated with the url; in particular joining
/api/img/1.png onto https://cdn.example.com/ introduces no double slash. -/
theorem c5_root_relative_join (b u : String)
    (h1 : startsWithL ['/'] u.data = true) (_h2 : b ≠ "") :
    normalize_image_url b u = ⟨rstripSlashL b.data ++ u.data⟩
    ∧ normalize_image_url "https://cdn.example.com/" "/api/img/1.png" =
        "https://cdn.example.com/api/img/1.png" := by
  refine ⟨?_, by decide⟩
  obtain ⟨d⟩ := u
  cases d with
  | nil => exact absurd h1 (by decide)
  | cons c cs =>
    have h1' : (['/'].isPrefixOf (c :: cs)) = true := h1
    have hc : c = '/' := by
      simp only [List.isPrefixOf, List.isPrefixOf_nil_left, Bool.and_true,
        beq_iff_eq] at h1'
      exact h1'.symm
    subst hc
    have hsw : startsWithL ['/'] ('/' :: cs) = true := by
      simp [startsWithL, List.isPrefixOf]
    show (⟨normalizeL b.data ('/' :: cs)⟩ : String) =
      ⟨rstripSlashL b.data ++ '/' :: cs⟩
    simp [normalizeL, isAbsOrData_slash_cons, hsw]

/-- C5 witness: the general theorem applied to the documented example. -/
theorem c5_root_relative_join_witness :
    normalize_image_url "https://cdn.example.com/" "/api/img/1.png" =
      "https://cdn.example.com/api/img/1.png" :=
  (c5_root_relative_join "https://cdn.example.com/" "/api/img/1.png"
    (by decide) (by decide)).2

/-- C6: for every url that, case-insensitively, starts with http://,
https:// or data:, and every base_url, normalize_image_url returns the url
unchanged. -/
theorem c6_absolute_unchanged (b u : String)
    (h : isAbsOrData u.data = true) :
    normalize_image_url b u = u := by
  obtain ⟨d⟩ := u
  cases d with
  | nil => exact absurd h (by decide)
  | cons c cs =>
    have h2 : isAbsOrData (c :: cs) = true := h
    show (⟨normalizeL b.data (c :: cs)⟩ : String) = ⟨c :: cs⟩
    simp [normalizeL, h2]

/-- C6 witness: an absolute https url and a data URI pass through. -/
theorem c6_absolute_unchanged_witness :
    normalize_image_url "anyBase" "https://x.com/a.png" = "https://x.com/a.png"
    ∧ normalize_image_url "anyBase" "data:image/png;base64,AAA" =
        "data:image/png;base64,AAA" :=
  ⟨c6_absolute_unchanged "anyBase" "https://x.com/a.png" (by decide),
   c6_absolute_unchanged "anyBase" "data:image/png;base64,AAA" (by decide)⟩

/-- C7: on input with no image match the handler sets no reply, and
re-running the handler on such an event any number of times leaves it
untouched. -/
theorem c7_no_match_no_rewrite (b t : String)
    (h : imgUrls (scan t.data) = []) :
    normal_message_responded b t = none
    ∧ ∀ n : Nat, (runHandler b)^[n] ⟨t, none⟩ = ⟨t, none⟩ := by
  have hnone : normal_message_responded b t = none := by
    unfold normal_message_responded
    rw [h]
    simp
  refine ⟨hnone, ?_⟩
  have hstep : runHandler b ⟨t, none⟩ = ⟨t, none⟩ := by
    simp [runHandler, hnone]
  intro n
  induction n with
  | zero => rfl
  | succ n ih => rw [Function.iterate_succ_apply, hstep, ih]

/-- C7 witness: the general theorem on image-free text, iterated thrice. -/
theorem c7_no_match_no_rewrite_witness :
    normal_message_responded "" "hello world" = none
    ∧ (runHandler "")^[3] ⟨"hello world", none⟩ = ⟨"hello world", none⟩ :=
  ⟨(c7_no_match_no_rewrite "" "hello world" (by decide)).1,
   (c7_no_match_no_rewrite "" "hello world" (by decide)).2 3⟩

/-- C8: every text segment parse emits contains a non-whitespace character,
and input that is just whitespace around one image match parses to exactly
one image segment and no text segments. -/
theorem c8_text_segments_nonblank (b t : String) :
    (∀ s ∈ parse_markdown_content b t, ∀ c, s = Seg.text c →
      hasNonWs c.data = true)
    ∧ parse_markdown_content "" "   ![a](http://x/1.png)   " =
        [Seg.image "a" "http://x/1.png"] := by
  refine ⟨?_, by decide⟩
  intro s hs c hc
  subst hc
  exact emitLoop_text_nonWs b.data (scan t.data) [] c hs

/-- C8 witness: the membership fact instantiated on a concrete parse. -/
theorem c8_text_segments_nonblank_witness :
    hasNonWs ("abc" : String).data = true :=
  (c8_text_segments_nonblank "" "abc![d](http://e)").1
    (Seg.text "abc") (by decide) "abc" rfl

/-- C10: a configured base_url value is stored whitespace-stripped and then
trailing-slash-stripped (empty results included), and every failure path of
the configuration read (missing file, unreadable file, unparsable JSON,
absent or falsy field) stores the empty string, surfacing no error. -/
theorem c10_config_load_normalized :
    (∀ s, _load_base_url_from_config (.value s) =
      ⟨rstripSlashL (pyStripL s.data)⟩)
    ∧ _load_base_url_from_config .missing = ""
    ∧ _load_base_url_from_config .unreadable = ""
    ∧ _load_base_url_from_config .unparsable = ""
    ∧ _load_base_url_from_config .fieldAbsent = "" := by
  refine ⟨?_, rfl, rfl, rfl, rfl⟩
  intro s
  simp only [_load_base_url_from_config]
  split
  · next hemp =>
    have he : pyStripL s.data = [] := List.isEmpty_iff.mp hemp
    rw [he]
    rfl
  · rfl

/-- C1 counterexample: the input ![a](b) has one image match whose
stripped url b is not root-relative (it does not begin with a slash), yet
with unconfigured base_url the handler still suppresses the rewrite.  The
claim predicts a rewrite here, since it ties suppression to root-relative
urls only. -/
theorem c1_suppression_counterexample :
    imgUrls (scan ("![a](b)" : String).data) ≠ []
    ∧ (∀ u ∈ strippedUrls ("![a](b)" : String).data,
        startsWithL ['/'] u = false)
    ∧ normal_message_responded "" "![a](b)" = none := by
  refine ⟨by decide, by decide, by decide⟩

/-- C1 amended: with at least one image match, the handler suppresses the
rewrite if and only if some matched url, whitespace-stripped, is relative
in the code's sense (case-insensitively it starts with none of http://,
https://, data:) and base_url is empty; in every other case it replaces
the reply with the converted segment sequence. -/
theorem c1_suppress_iff_relative_and_unconfigured (b t : String)
    (h : imgUrls (scan t.data) ≠ []) :
    (normal_message_responded b t = none ↔
      hasRelativeUrl t.data = true ∧ b = "")
    ∧ (¬(hasRelativeUrl t.data = true ∧ b = "") →
        normal_message_responded b t =
          some ((parse_markdown_content b t).map segToPart)) := by
  have h0 : (imgUrls (scan t.data)).isEmpty = false := by
    simpa [List.isEmpty_iff] using h
  have hpne : parse_markdown_content b t ≠ [] :=
    emitLoop_ne_nil b.data (scan t.data) [] h
  have hcne : ((parse_markdown_content b t).map segToPart).isEmpty = false := by
    simp [List.isEmpty_iff, hpne]
  by_cases hrel : (hasRelativeUrl t.data && (b == "")) = true
  · obtain ⟨hr1, hr2⟩ :
        hasRelativeUrl t.data = true ∧ (b == "") = true := by
      simpa using hrel
    have hb : b = "" := by simpa using hr2
    have hres : normal_message_responded b t = none := by
      unfold normal_message_responded
      rw [h0, hrel]
      simp
    exact ⟨⟨fun _ => ⟨hr1, hb⟩, fun _ => hres⟩,
      fun hn => absurd ⟨hr1, hb⟩ hn⟩
  · have hrel2 : (hasRelativeUrl t.data && (b == "")) = false := by
      simpa using hrel
    have hres : normal_message_responded b t =
        some ((parse_markdown_content b t).map segToPart) := by
      unfold normal_message_responded
      rw [h0, hrel2, hcne]
      simp
    refine ⟨⟨fun hc => ?_, fun hc => ?_⟩, fun _ => hres⟩
    · rw [hres] at hc
      exact absurd hc (by simp)
    · exact absurd (by simp [hc.1, hc.2]) hrel

/-- C1 witness: a root-relative url with empty base_url is suppressed. -/
theorem c1_suppress_witness :
    normal_message_responded "" "![a](/x)" = none :=
  ((c1_suppress_iff_relative_and_unconfigured "" "![a](/x)" (by decide)).1).mpr
    ⟨by decide, rfl⟩

/-- C3 counterexample: the input ![a]() is not matched by the code, whose
url group requires at least one character: parse emits a single literal
text segment and no image segment, against the claim that an image segment
with empty url is emitted. -/
theorem c3_empty_url_counterexample :
    parse_markdown_content "" "![a]()" = [Seg.text "![a]()"]
    ∧ imgUrls (scan ("![a]()" : String).data) = [] := by
  refine ⟨by decide, by decide⟩

/-- C3 amended: a match attempt succeeds exactly on the literal form
![alt](url) where alt is a possibly empty run of characters other than ]
and url is a NON-EMPTY run of characters other than ); ![a]() therefore
fails to match and stays literal text. -/
theorem c3_match_shape :
    (∀ cs a u rest : Chars, matchImageAt cs = some (a, u, rest) ↔
      (cs = pieceText (.img a u) ++ rest
       ∧ (∀ c ∈ a, (c == ']') = false)
       ∧ (∀ c ∈ u, (c == ')') = false)
       ∧ u ≠ []))
    ∧ parse_markdown_content "" "![a]()" = [Seg.text "![a]()"] := by
  refine ⟨?_, by decide⟩
  intro cs a u rest
  constructor
  · intro h
    obtain ⟨hcs, -, ha, hu, hune⟩ := matchImageAt_eq_some h
    exact ⟨hcs, ha, hu, hune⟩
  · rintro ⟨hcs, ha, hu, hune⟩
    subst hcs
    have hpa : ∀ c ∈ a, (fun c => !(c == ']')) c = true := by
      intro c hc
      simp [ha c hc]
    have hpu : ∀ c ∈ u, (fun c => !(c == ')')) c = true := by
      intro c hc
      simp [hu c hc]
    have hue : u.isEmpty = false := by
      simpa [List.isEmpty_iff] using hune
    show matchImageAt ('!' :: '[' :: (a ++ ']' :: '(' :: (u ++ [')'])) ++ rest)
      = some (a, u, rest)
    have hshape :
        ('!' :: '[' :: (a ++ ']' :: '(' :: (u ++ [')'])) ++ rest : Chars) =
        '!' :: '[' :: (a ++ (']' :: '(' :: (u ++ (')' :: rest)))) := by
      simp
    rw [hshape]
    simp only [matchImageAt]
    rw [if_pos (show ('!' == '!' && '[' == '[') = true from by decide)]
    rw [dropWhile_all_app a _ hpa, takeWhile_all_app a _ hpa]
    simp [List.dropWhile_cons, List.takeWhile_cons,
      takeWhile_all_app u (')' :: rest) hpu,
      dropWhile_all_app u (')' :: rest) hpu, hue]

/-- C3 amended witness: a one-character url matches. -/
theorem c3_match_shape_witness :
    matchImageAt ("![a](u)" : String).data = some (['a'], ['u'], []) :=
  (c3_match_shape.1 ("![a](u)" : String).data ['a'] ['u'] []).mpr
    ⟨by decide, by decide, by decide, by decide⟩

/-- C4: the suppress-check strips urls before classifying while
normalization sees the raw capture: on ![a]( /img.png) with any configured
base_url the handler does rewrite, the emitted image part carries the raw
url with its leading space and no base_url prefix, the stripped url was
classified relative, and normalization leaves the raw url unchanged. -/
theorem c4_strip_mismatch (b : String) (h : b ≠ "") :
    normal_message_responded b "![a]( /img.png)" =
      some [Part.Image " /img.png"]
    ∧ hasRelativeUrl ("![a]( /img.png)" : String).data = true
    ∧ normalize_image_url b " /img.png" = " /img.png" := by
  have hb : (b == "") = false := beq_eq_false_iff_ne.mpr h
  have hstep : normal_message_responded b "![a]( /img.png)" =
      if (hasRelativeUrl ("![a]( /img.png)" : String).data && (b == ""))
      then none
      else some [Part.Image " /img.png"] := rfl
  refine ⟨?_, by decide, rfl⟩
  rw [hstep]
  simp [hb]

/-- C4 witness: the theorem at a concrete configured base_url. -/
theorem c4_strip_mismatch_witness :
    normal_message_responded "http://e.com" "![a]( /img.png)" =
      some [Part.Image " /img.png"] :=
  (c4_strip_mismatch "http://e.com" (by decide)).1

/-- C9: both operations are total functions of their string inputs:
normalize_image_url always returns either the url itself or the slash-join
with the base (no other outcome, hence no failure), and text without any
image match parses to itself as literal text (one text segment, or none
when the text is whitespace-only). -/
theorem c9_total_no_failure (b u t : String)
    (h : imgUrls (scan t.data) = []) :
    (normalize_image_url b u = u
      ∨ normalize_image_url b u = ⟨rstripSlashL b.data ++ u.data⟩)
    ∧ parse_markdown_content b t =
        (if hasNonWs t.data then [Seg.text t] else []) := by
  constructor
  · show (⟨normalizeL b.data u.data⟩ : String) = u
      ∨ (⟨normalizeL b.data u.data⟩ : String) = ⟨rstripSlashL b.data ++ u.data⟩
    unfold normalizeL
    split
    · left
      rfl
    · split
      · left
        rfl
      · split
        · right
          rfl
        · left
          rfl
  · have hloop := emitLoop_no_img b.data (scan t.data) [] h
    show emitLoop b.data [] (scan t.data) = _
    rw [hloop]
    rw [List.nil_append, scan_text]

/-- C9 witness: the theorem at concrete inputs. -/
theorem c9_total_no_failure_witness :
    (normalize_image_url "b" "x/y" = "x/y"
      ∨ normalize_image_url "b" "x/y" =
          ⟨rstripSlashL ("b" : String).data ++ ("x/y" : String).data⟩)
    ∧ parse_markdown_content "b" "no images here" =
        (if hasNonWs ("no images here" : String).data
         then [Seg.text "no images here"] else []) :=
  c9_total_no_failure "b" "x/y" "no images here" (by decide)

end MdToImage
